import Mathlib

/-!
# Verification of the transactions_api pipeline

A shallow embedding of the repository's core components:

* `src/services/aggregator.py` (`RedisAggregationWorker`),
* `src/app/services/persistor.py` (`MongoPersistenceWorker`),
* `src/app/services/stats_service.py` (`StatsQueryService`),
* `src/app/services/importer.py` (`CsvTransactionImporter`),
* `src/app/core/redis_keys.py` (keying contract).

Modelling conventions:

* A Python `datetime.date` is represented by its proleptic ordinal, i.e. an
  integer counting days; `datetime` values (second precision) are represented
  by the integer count of seconds, so that `ts.date()` is floor division by
  86400 and `date` comparison / `timedelta` arithmetic become integer
  comparison / addition.  Both representations are order-preserving
  bijections, and the `isoformat` / `fromisoformat` string round-trips used by
  the code become the identity under them.  The string-level keying contract
  itself (`agg:{day}:{type}` and `split(":")` parsing) is modelled separately
  on real character lists.
* Monetary amounts are represented exactly as rationals.  `round(x, 2)`
  is modelled as rounding `x * 100` to the nearest integer; on the inputs
  appearing here (decimal fractions that are not exact half-cent ties) this
  agrees with Python's float `round` and with Redis `HINCRBYFLOAT` / `float()`
  coercion at two-decimal precision.
* A Redis hash is an association list of field/value pairs; a missing key and
  an empty hash are observationally identical in Redis (`HGETALL` of a missing
  key returns `{}`), so the hot store maps every key to a `Hash`, with `[]`
  meaning absent.
-/

namespace TransactionsApi

/-- `round(x, 2)`: round to two decimal places (`round` rounds `x * 100` to the
nearest integer; ties cannot occur for the two/three-decimal inputs of this
development, where Python's banker's rounding agrees). -/
def round2 (q : ℚ) : ℚ := ((round (q * 100) : ℤ) : ℚ) / 100

/-- A Redis hash: field (payment method) to stored numeric value. -/
abbrev Hash := List (String × ℚ)

/-- Redis `HINCRBYFLOAT key field a`: add `a` to the field, creating the field
(and implicitly the key) when absent. -/
def hincrbyfloat (h : Hash) (f : String) (a : ℚ) : Hash :=
  if h.any (fun p => p.1 == f) then
    h.map (fun p => if p.1 == f then (p.1, p.2 + a) else p)
  else
    h ++ [(f, a)]

/-- `HGET`-style lookup in a hash. -/
def hget (h : Hash) (f : String) : Option ℚ := h.lookup f

/-- A cold-store (MongoDB) document for one archived day: the `deposits` and
`withdrawals` fields may each be absent (`doc.get(..., {})` on the read path).
The `last_updated` wall-clock field is not modelled. -/
structure ColdDoc where
  deposits : Option Hash
  withdrawals : Option Hash
deriving DecidableEq

/-- The observable storage state shared by the workers:

* `agg k` is the hot hash stored at key `agg:{day}:{type}` (represented by the
  pair `k = (day, type)`; `[]` means the key is absent),
* `tracked` is the Redis set `system:tracked_days`,
* `clock` is the Redis string `system:virtual_clock` (`none` = unset),
* `cold` is the MongoDB collection, an association list keyed by `date`. -/
structure Store where
  agg : ℤ × String → Hash
  tracked : List ℤ
  clock : Option ℤ
  cold : List (ℤ × ColdDoc)

/-- The empty system state: no hot keys, no tracked days, no virtual clock,
empty cold collection. -/
def emptyStore : Store := ⟨fun _ => [], [], none, []⟩

/-- `ts.date()` for a timestamp in seconds: floor division by 86400
(for the positive divisor 86400, `Int` division is floor division). -/
def dateOf (t : ℤ) : ℤ := t / 86400

/-! ## Aggregator (`src/services/aggregator.py`, `RedisAggregationWorker`)

A stream message payload is a string field map; `_handle_batch` reads
`payload["timestamp"]` (parsed with `datetime.fromisoformat`),
`payload["type"]`, `payload["payment_method"]` and
`float(payload["amount"])`.  The embedding carries each field as the result
of that lookup-and-parse: `none` means the field is missing or fails to
parse (`KeyError` / `ValueError` inside the per-message `try`). -/

/-- A stream message payload after field lookup and parsing. -/
structure Payload where
  timestamp : Option ℤ
  txType : Option String
  method : Option String
  amount : Option ℚ
deriving DecidableEq

/-- A malformed message: some lookup or parse in the `try` block raises
(unparseable timestamp, missing `type` / `payment_method` / `amount`,
non-numeric amount). -/
def malformedPayload (p : Payload) : Prop :=
  p.timestamp = none ∨ p.txType = none ∨ p.method = none ∨ p.amount = none

instance (p : Payload) : Decidable (malformedPayload p) := by
  unfold malformedPayload; infer_instance

/-- One Redis command enqueued on the aggregator's pipeline. -/
inductive Cmd where
  | hincr (day : ℤ) (txType : String) (method : String) (amount : ℚ)
  | sadd (day : ℤ)
  | setClock (t : ℤ)
  | xack (msgId : ℕ)
deriving DecidableEq

/-- `self.local_virtual_clock is None or ts > self.local_virtual_clock`. -/
def clockLTb (c : Option ℤ) (ts : ℤ) : Bool :=
  match c with
  | none => true
  | some x => decide (x < ts)

/-- The body of the per-message loop in `_handle_batch`: on a well-formed
message enqueue `HINCRBYFLOAT` (amount rounded to two decimals by the caller),
`SADD` of the day, `SET` of the virtual clock when it strictly advances
(also updating the in-process copy), and `XACK`; on a malformed message leave
the accumulated commands and the in-process clock untouched (`continue`). -/
def processMessage (acc : List Cmd × Option ℤ) (m : ℕ × Payload) :
    List Cmd × Option ℤ :=
  match m.2.timestamp, m.2.txType, m.2.method, m.2.amount with
  | some ts, some ty, some me, some am =>
      if clockLTb acc.2 ts then
        (acc.1 ++ [Cmd.hincr (dateOf ts) ty me (round2 am), Cmd.sadd (dateOf ts),
                   Cmd.setClock ts, Cmd.xack m.1], some ts)
      else
        (acc.1 ++ [Cmd.hincr (dateOf ts) ty me (round2 am), Cmd.sadd (dateOf ts),
                   Cmd.xack m.1], acc.2)
  | _, _, _, _ => acc

/-- `_handle_batch`, command-building phase: fold the per-message loop over the
batch, starting from an empty pipeline and the current in-process clock.
Returns the enqueued commands and the new in-process clock. -/
def buildBatch (lc : Option ℤ) (msgs : List (ℕ × Payload)) : List Cmd × Option ℤ :=
  msgs.foldl processMessage ([], lc)

/-- Execute one pipelined command against the store, collecting acked ids. -/
def execCmd (sa : Store × List ℕ) (c : Cmd) : Store × List ℕ :=
  match c with
  | Cmd.hincr day ty me a =>
      ({ sa.1 with
          agg := fun k =>
            if k = (day, ty) then hincrbyfloat (sa.1.agg (day, ty)) me a
            else sa.1.agg k }, sa.2)
  | Cmd.sadd day =>
      ({ sa.1 with
          tracked := if day ∈ sa.1.tracked then sa.1.tracked
                     else sa.1.tracked ++ [day] }, sa.2)
  | Cmd.setClock t => ({ sa.1 with clock := some t }, sa.2)
  | Cmd.xack msgId => (sa.1, sa.2 ++ [msgId])

/-- `pipe.execute()`: run the enqueued commands in order. -/
def execCmds (st : Store) (cmds : List Cmd) : Store × List ℕ :=
  cmds.foldl execCmd (st, [])

/-- `_handle_batch` end to end: build the pipeline from the batch, execute it.
Returns (new store, new in-process clock, acked message ids). -/
def handleBatch (st : Store) (lc : Option ℤ) (msgs : List (ℕ × Payload)) :
    Store × Option ℤ × List ℕ :=
  let built := buildBatch lc msgs
  let ex := execCmds st built.1
  (ex.1, built.2, ex.2)

/-- Ordering on optional clocks: an unset clock is below everything. -/
def clockLE (a b : Option ℤ) : Prop :=
  match a with
  | none => True
  | some x => ∃ y, b = some y ∧ x ≤ y

theorem clockLE_rfl (a : Option ℤ) : clockLE a a := by
  cases a with
  | none => trivial
  | some x => exact ⟨x, rfl, le_refl x⟩

theorem clockLE_trans {a b c : Option ℤ} (h1 : clockLE a b) (h2 : clockLE b c) :
    clockLE a c := by
  cases a with
  | none => trivial
  | some x =>
    obtain ⟨y, hy, hxy⟩ := h1
    subst hy
    obtain ⟨z, hz, hyz⟩ := h2
    exact ⟨z, hz, le_trans hxy hyz⟩

theorem clockLE_processMessage (acc : List Cmd × Option ℤ) (m : ℕ × Payload) :
    clockLE acc.2 (processMessage acc m).2 := by
  obtain ⟨mid, p⟩ := m
  obtain ⟨ts, ty, me, am⟩ := p
  cases ts <;> cases ty <;> cases me <;> cases am <;>
    simp only [processMessage] <;> try exact clockLE_rfl _
  rename_i t _ _ _
  by_cases hc : clockLTb acc.2 t
  · simp only [hc, if_true]
    cases hacc : acc.2 with
    | none => trivial
    | some x =>
      refine ⟨t, rfl, ?_⟩
      have : decide (x < t) = true := by
        have := hc
        rw [hacc] at this
        simpa [clockLTb] using this
      exact le_of_lt (of_decide_eq_true this)
  · simp only [hc, if_false]
    exact clockLE_rfl _

theorem clockLE_foldl (msgs : List (ℕ × Payload)) :
    ∀ acc : List Cmd × Option ℤ, clockLE acc.2 (msgs.foldl processMessage acc).2 := by
  induction msgs with
  | nil => intro acc; exact clockLE_rfl _
  | cons m ms ih =>
    intro acc
    exact clockLE_trans (clockLE_processMessage acc m) (ih _)

theorem processMessage_clock_strict (acc : List Cmd × Option ℤ) (m : ℕ × Payload)
    (h : (processMessage acc m).2 ≠ acc.2) :
    ∃ ts, m.2.timestamp = some ts ∧ clockLTb acc.2 ts = true ∧
      (processMessage acc m).2 = some ts := by
  obtain ⟨mid, p⟩ := m
  obtain ⟨ts, ty, me, am⟩ := p
  cases ts <;> cases ty <;> cases me <;> cases am <;>
    simp only [processMessage] at h ⊢ <;> try exact absurd rfl h
  rename_i t _ _ _
  by_cases hc : clockLTb acc.2 t
  · exact ⟨t, rfl, hc, by simp only [hc, if_true]⟩
  · simp only [hc, if_false] at h
    exact absurd rfl h

/-- The clock value a command list leaves in the store: the argument of the
last `SET system:virtual_clock`, else the initial value. -/
def clockAfter (c : Option ℤ) (cmds : List Cmd) : Option ℤ :=
  cmds.foldl (fun a cmd => match cmd with | Cmd.setClock t => some t | _ => a) c

theorem clockAfter_append (c : Option ℤ) (l1 l2 : List Cmd) :
    clockAfter c (l1 ++ l2) = clockAfter (clockAfter c l1) l2 :=
  List.foldl_append ..

theorem execCmds_clock (cmds : List Cmd) :
    ∀ (st : Store) (acks : List ℕ),
      (cmds.foldl execCmd (st, acks)).1.clock = clockAfter st.clock cmds := by
  induction cmds with
  | nil => intro st acks; rfl
  | cons c cs ih =>
    intro st acks
    cases c with
    | hincr day ty me a =>
      rw [List.foldl_cons]
      exact ih _ _
    | sadd day =>
      rw [List.foldl_cons]
      exact ih _ _
    | setClock t =>
      rw [List.foldl_cons]
      exact ih _ _
    | xack msgId =>
      rw [List.foldl_cons]
      exact ih _ _

theorem buildBatch_clockAfter (msgs : List (ℕ × Payload)) :
    ∀ (acc : List Cmd × Option ℤ) (c0 : Option ℤ), clockAfter c0 acc.1 = acc.2 →
      clockAfter c0 (msgs.foldl processMessage acc).1 =
        (msgs.foldl processMessage acc).2 := by
  induction msgs with
  | nil => intro acc c0 h; exact h
  | cons m ms ih =>
    intro acc c0 h
    rw [List.foldl_cons]
    apply ih
    obtain ⟨mid, p⟩ := m
    obtain ⟨ts, ty, me, am⟩ := p
    cases ts <;> cases ty <;> cases me <;> cases am <;>
      simp only [processMessage] <;> try exact h
    rename_i t _ _ _
    by_cases hc : clockLTb acc.2 t
    · rw [if_pos hc]
      show clockAfter c0 (acc.1 ++ _) = _
      rw [clockAfter_append, h]
      rfl
    · rw [if_neg hc]
      show clockAfter c0 (acc.1 ++ _) = _
      rw [clockAfter_append, h]
      rfl

/-- C2: the virtual clock is monotone non-decreasing across any sequence of
messages applied by the aggregator; it advances only when a message's
timestamp is strictly greater than the current in-process clock; and when the
in-process copy starts in sync with the hot-store copy (as `run` arranges at
start-up by initializing it from the store), executing the batch writes the
new in-process clock through to the store. -/
theorem virtual_clock_monotone_strict (st : Store) (lc : Option ℤ)
    (msgs : List (ℕ × Payload)) (acc : List Cmd × Option ℤ) (m : ℕ × Payload) :
    clockLE lc (buildBatch lc msgs).2 ∧
    ((processMessage acc m).2 ≠ acc.2 →
      ∃ ts, m.2.timestamp = some ts ∧ clockLTb acc.2 ts = true ∧
        (processMessage acc m).2 = some ts) ∧
    (st.clock = lc → (handleBatch st lc msgs).1.clock = (handleBatch st lc msgs).2.1) := by
  refine ⟨clockLE_foldl msgs ([], lc), processMessage_clock_strict acc m, ?_⟩
  intro hsync
  show (execCmds st (buildBatch lc msgs).1).1.clock = (buildBatch lc msgs).2
  rw [execCmds, execCmds_clock, hsync]
  exact buildBatch_clockAfter msgs ([], lc) lc rfl

/-- Closed witness for `virtual_clock_monotone_strict`: a concrete batch of one
well-formed message advancing the clock from unset to its timestamp. -/
theorem virtual_clock_monotone_strict_witness :
    clockLE none (buildBatch none [(0, ⟨some 5, some "deposit", some "card", some 1⟩)]).2 ∧
    (∃ ts, (⟨some 5, some "deposit", some "card", some 1⟩ : Payload).timestamp = some ts ∧
      clockLTb none ts = true ∧
      (processMessage ([], none) (0, ⟨some 5, some "deposit", some "card", some 1⟩)).2 = some ts) ∧
    (handleBatch emptyStore none
        [(0, ⟨some 5, some "deposit", some "card", some 1⟩)]).1.clock =
      (handleBatch emptyStore none
        [(0, ⟨some 5, some "deposit", some "card", some 1⟩)]).2.1 := by
  have h := virtual_clock_monotone_strict emptyStore none
    [(0, ⟨some 5, some "deposit", some "card", some 1⟩)] ([], none)
    (0, ⟨some 5, some "deposit", some "card", some 1⟩)
  exact ⟨h.1, h.2.1 (by decide), h.2.2 rfl⟩

theorem processMessage_malformed (acc : List Cmd × Option ℤ) (mid : ℕ) (p : Payload)
    (h : malformedPayload p) : processMessage acc (mid, p) = acc := by
  obtain ⟨ts, ty, me, am⟩ := p
  cases ts <;> cases ty <;> cases me <;> cases am <;>
    first
      | rfl
      | (exfalso; simp only [malformedPayload] at h; tauto)

/-- C5: a malformed message inside a batch is skipped without acking and
issues no command at all — the pipeline contents and the in-process virtual
clock are exactly those of the batch with the message removed, so the
remaining messages are processed identically (no increment, no tracked-days
`SADD`, no clock `SET`, no `XACK` for it). -/
theorem malformed_message_no_commands (lc : Option ℤ) (pre post : List (ℕ × Payload))
    (mid : ℕ) (p : Payload) (h : malformedPayload p) :
    buildBatch lc (pre ++ (mid, p) :: post) = buildBatch lc (pre ++ post) := by
  unfold buildBatch
  rw [List.foldl_append, List.foldl_append, List.foldl_cons,
    processMessage_malformed _ mid p h]

/-- Closed witness for `malformed_message_no_commands`: a payload with a
non-numeric amount between two well-formed messages contributes nothing. -/
theorem malformed_message_no_commands_witness :
    buildBatch none
        [(0, ⟨some 5, some "deposit", some "card", some 1⟩),
         (1, ⟨some 6, some "deposit", some "card", none⟩),
         (2, ⟨some 7, some "withdrawal", some "wire", some 2⟩)] =
      buildBatch none
        [(0, ⟨some 5, some "deposit", some "card", some 1⟩),
         (2, ⟨some 7, some "withdrawal", some "wire", some 2⟩)] :=
  malformed_message_no_commands none
    [(0, ⟨some 5, some "deposit", some "card", some 1⟩)]
    [(2, ⟨some 7, some "withdrawal", some "wire", some 2⟩)]
    1 ⟨some 6, some "deposit", some "card", none⟩ (by decide)

/-- The two records of spec scenario 4: same day (timestamps 0 and 1 both fall
on day 0), same type and method, amounts `1.234` and `2.001`. -/
def scenarioFourBatch : List (ℕ × Payload) :=
  [(0, ⟨some 0, some "deposit", some "card", some (1234/1000)⟩),
   (1, ⟨some 1, some "deposit", some "card", some (2001/1000)⟩)]

/-- C6, counterexample to the claim as stated: applying the two records of
scenario 4 does **not** leave `3.24` in the hot cell. -/
theorem scenario_four_cell_ne_spec_value :
    hget ((handleBatch emptyStore none scenarioFourBatch).1.agg (0, "deposit")) "card"
      ≠ some (324/100) := by
  simp only [handleBatch, buildBatch, scenarioFourBatch, processMessage, clockLTb,
    execCmds, execCmd, emptyStore, hget, hincrbyfloat, dateOf, List.foldl,
    List.any_nil, List.any_cons, List.append_nil, List.nil_append, List.cons_append,
    List.map_cons, List.map_nil, List.lookup]
  norm_num [round2, round_eq]

/-- C6 as amended: each amount is rounded to two decimals before the increment
is issued, so the hot cell holds `1.23 + 2.00 = 3.23`. -/
theorem scenario_four_cell_eq :
    hget ((handleBatch emptyStore none scenarioFourBatch).1.agg (0, "deposit")) "card"
      = some (323/100) := by
  simp only [handleBatch, buildBatch, scenarioFourBatch, processMessage, clockLTb,
    execCmds, execCmd, emptyStore, hget, hincrbyfloat, dateOf, List.foldl,
    List.any_nil, List.any_cons, List.append_nil, List.nil_append, List.cons_append,
    List.map_cons, List.map_nil, List.lookup]
  norm_num [round2, round_eq]

/-! ## Query service (`src/app/services/stats_service.py`, `StatsQueryService`)

`get_range` enumerates the inclusive date range, reads the virtual clock to
compute `hot_boundary = virtual_today - hot_days` (falling back to the
wall-clock today when the clock is absent), partitions the days at the
boundary, reads the `>= boundary` part from Redis and the rest from MongoDB,
and merges the two result dictionaries (their key sets are disjoint by the
partition). -/

/-- `_date_range(start, end)`: the inclusive list of days
(`while current <= end`). -/
def dateRangeList (s e : ℤ) : List ℤ :=
  (List.range (e + 1 - s).toNat).map (fun (i : ℕ) => s + (i : ℤ))

/-- One day's entry in the query result: the Python dict
`{"deposits": {...}, "withdrawals": {...}}` (both keys always constructed). -/
structure DayData where
  deposits : Hash
  withdrawals : Hash
deriving DecidableEq

/-- The hot-store read for one day: `HGETALL` both type hashes, skip the day
when both are empty/absent, otherwise build the entry (the `float(v)` coercion
of the stored decimal strings is the identity in this model). -/
def hotDayEntry (st : Store) (d : ℤ) : Option DayData :=
  if st.agg (d, "deposit") = [] ∧ st.agg (d, "withdrawal") = [] then none
  else some ⟨st.agg (d, "deposit"), st.agg (d, "withdrawal")⟩

/-- `_read_many_from_redis`: pipeline both hashes per requested day, keeping
days with data. -/
def readManyFromRedis (st : Store) (days : List ℤ) : List (ℤ × DayData) :=
  days.filterMap (fun d => (hotDayEntry st d).map (fun v => (d, v)))

/-- Projection of a cold document on the read path:
`doc.get("deposits", {})` / `doc.get("withdrawals", {})`. -/
def coldProj (doc : ColdDoc) : DayData :=
  ⟨doc.deposits.getD [], doc.withdrawals.getD []⟩

/-- `_read_many_from_mongo`: one `find {date: {$in: days}}` over the
collection, keyed by document date. -/
def readManyFromMongo (cold : List (ℤ × ColdDoc)) (days : List ℤ) :
    List (ℤ × DayData) :=
  cold.filterMap (fun q => if q.1 ∈ days then some (q.1, coldProj q.2) else none)

/-- `_get_hot_boundary`: `(hot_boundary, virtual_today)` where `virtual_today`
is the date of the stored virtual clock, or the wall-clock today
(`date.today()`, here the parameter `wallToday`) when the clock is absent. -/
def getHotBoundary (st : Store) (wallToday hotDays : ℤ) : ℤ × ℤ :=
  match st.clock with
  | none => (wallToday - hotDays, wallToday)
  | some t => (dateOf t - hotDays, dateOf t)

/-- `get_range(start, end)`: partition the inclusive range at the hot
boundary (`d >= hot_boundary` to Redis, `d < hot_boundary` to MongoDB) and
merge both result dictionaries. -/
def getRange (st : Store) (wallToday hotDays s e : ℤ) : List (ℤ × DayData) :=
  let days := dateRangeList s e
  let hb := (getHotBoundary st wallToday hotDays).1
  readManyFromRedis st (days.filter (fun d => decide (hb ≤ d))) ++
    readManyFromMongo st.cold (days.filter (fun d => decide (d < hb)))

theorem mem_dateRangeList (s e d : ℤ) : d ∈ dateRangeList s e ↔ s ≤ d ∧ d ≤ e := by
  unfold dateRangeList
  rw [List.mem_map]
  constructor
  · rintro ⟨i, hi, rfl⟩
    rw [List.mem_range] at hi
    omega
  · rintro ⟨h1, h2⟩
    refine ⟨(d - s).toNat, ?_, ?_⟩
    · rw [List.mem_range]
      omega
    · omega

theorem lookup_append {α β : Type} [BEq α] (l1 l2 : List (α × β)) (k : α) :
    (l1 ++ l2).lookup k = (l1.lookup k).or (l2.lookup k) := by
  induction l1 with
  | nil => simp [List.lookup]
  | cons a l ih =>
    obtain ⟨a1, a2⟩ := a
    cases h : k == a1 <;> simp [List.lookup, h, ih]

theorem lookup_readManyFromRedis (st : Store) (days : List ℤ) (d : ℤ) :
    (readManyFromRedis st days).lookup d =
      if d ∈ days then hotDayEntry st d else none := by
  induction days with
  | nil => simp [readManyFromRedis]
  | cons a l ih =>
    cases h : hotDayEntry st a with
    | none =>
      have hstep : readManyFromRedis st (a :: l) = readManyFromRedis st l := by
        unfold readManyFromRedis
        exact List.filterMap_cons_none (by simp [h])
      rw [hstep, ih]
      by_cases hd : d = a
      · subst hd
        simp only [List.mem_cons, true_or, if_true]
        split
        · rfl
        · exact h.symm
      · simp [List.mem_cons, hd]
    | some v =>
      have hstep : readManyFromRedis st (a :: l) = (a, v) :: readManyFromRedis st l := by
        unfold readManyFromRedis
        exact List.filterMap_cons_some (by simp [h])
      rw [hstep]
      by_cases hd : d = a
      · subst hd
        simp [List.lookup, h]
      · have hba : (d == a) = false := by simp [hd]
        simp [List.lookup, hba, ih, List.mem_cons, hd]

theorem lookup_readManyFromMongo (cold : List (ℤ × ColdDoc)) (days : List ℤ) (d : ℤ) :
    (readManyFromMongo cold days).lookup d =
      if d ∈ days then (cold.lookup d).map coldProj else none := by
  induction cold with
  | nil => simp [readManyFromMongo, List.lookup]
  | cons q rest ih =>
    obtain ⟨k, doc⟩ := q
    simp only [readManyFromMongo, List.filterMap_cons] at ih ⊢
    by_cases hk : k ∈ days
    · simp only [hk, if_true]
      by_cases hd : d = k
      · subst hd
        simp [List.lookup, hk]
      · have : (d == k) = false := by simp [hd]
        simp [List.lookup, this, ih]
    · simp only [hk, if_false]
      rw [ih]
      by_cases hd : d = k
      · subst hd
        simp [List.lookup, hk]
      · have : (d == k) = false := by simp [hd]
        simp [List.lookup, this]

/-- Full characterization of the result dictionary of `get_range`:
a day's entry is its assigned tier's read when the day is in range. -/
theorem getRange_lookup (st : Store) (w h s e d : ℤ) :
    (getRange st w h s e).lookup d =
      if s ≤ d ∧ d ≤ e then
        (if (getHotBoundary st w h).1 ≤ d then hotDayEntry st d
         else (st.cold.lookup d).map coldProj)
      else none := by
  simp only [getRange]
  rw [lookup_append, lookup_readManyFromRedis, lookup_readManyFromMongo]
  by_cases h1 : s ≤ d ∧ d ≤ e
  · by_cases h2 : (getHotBoundary st w h).1 ≤ d
    · simp [List.mem_filter, mem_dateRangeList, h1, h2, not_lt.mpr h2]
    · simp [List.mem_filter, mem_dateRangeList, h1, h2, not_le.mp h2]
  · simp [List.mem_filter, mem_dateRangeList, h1]

/-- A sample state for witnesses: virtual clock on day 100 (hot boundary 93
at the default `hot_days = 7`), hot data for day 100, one cold document for
day 90 holding only deposits. -/
def sampleStore : Store :=
  ⟨fun k => if k = (100, "deposit") then [("card", 5)] else [],
   [100], some 8640000, [(90, ⟨some [("wire", 2)], none⟩)]⟩

/-- A state with a cross-tier straggler: the hot store still holds data for
day 50, far below the hot boundary 93 derived from the virtual clock. -/
def stragglerStore : Store :=
  ⟨fun k => if k = (50, "deposit") then [("card", 1)] else [], [50], some 8640000, []⟩

/-- C1, counterexample to the claim as stated: day 50 lies in the queried
range and has data in the hot store (hence "in either tier"), but `get_range`
assigns every day below the hot boundary to the cold store alone, so the day
is omitted from the response. -/
theorem getRange_omits_cross_tier_day :
    hotDayEntry stragglerStore 50 ≠ none ∧ 50 ∈ dateRangeList 50 50 ∧
      (getRange stragglerStore 0 7 50 50).lookup 50 = none := by
  refine ⟨by decide, by decide, ?_⟩
  decide

/-- C1 as amended: for every date range `[s, e]`, `get_range` returns an entry
for exactly those days of the inclusive range that have data in their
*assigned* tier — the hot store for days `≥ hot_boundary`, the cold store for
days `< hot_boundary` — and every returned day's totals equal the per-tier
stored values; all other days are omitted. -/
theorem getRange_exact_assigned_tier (st : Store) (w h s e d : ℤ) :
    ((getRange st w h s e).lookup d ≠ none ↔
      s ≤ d ∧ d ≤ e ∧
        (if (getHotBoundary st w h).1 ≤ d then hotDayEntry st d ≠ none
         else st.cold.lookup d ≠ none)) ∧
    (∀ dd, (getRange st w h s e).lookup d = some dd →
      (if (getHotBoundary st w h).1 ≤ d then hotDayEntry st d = some dd
       else (st.cold.lookup d).map coldProj = some dd)) := by
  constructor
  · rw [getRange_lookup]
    by_cases h1 : s ≤ d ∧ d ≤ e
    · by_cases h2 : (getHotBoundary st w h).1 ≤ d
      · simp [h1, h2]
      · cases hc : st.cold.lookup d <;> simp [h1, h2, hc]
    · simp only [if_neg h1, ne_eq, not_true_eq_false, false_iff, not_and]
      intro hs he
      exact absurd ⟨hs, he⟩ h1
  · intro dd hdd
    rw [getRange_lookup] at hdd
    by_cases h1 : s ≤ d ∧ d ≤ e
    · rw [if_pos h1] at hdd
      by_cases h2 : (getHotBoundary st w h).1 ≤ d
      · rw [if_pos h2] at hdd
        rw [if_pos h2]
        exact hdd
      · rw [if_neg h2] at hdd
        rw [if_neg h2]
        exact hdd
    · rw [if_neg h1] at hdd
      exact absurd hdd (by simp)

/-- Closed witness for `getRange_exact_assigned_tier`: in `sampleStore`,
day 100 is answered from the hot tier with exactly its stored hashes. -/
theorem getRange_exact_assigned_tier_witness :
    (if (getHotBoundary sampleStore 0 7).1 ≤ 100
     then hotDayEntry sampleStore 100 = some ⟨[("card", 5)], []⟩
     else (sampleStore.cold.lookup 100).map coldProj = some ⟨[("card", 5)], []⟩) :=
  (getRange_exact_assigned_tier sampleStore 0 7 95 100 100).2
    ⟨[("card", 5)], []⟩ (by decide)

/-- C8: `get_range` partitions the inclusive range at
`hot_boundary = virtual_today − hot_days`, `virtual_today` being the date of
the stored virtual clock with fall-back to the wall-clock today when the
clock is absent; a day `≥ hot_boundary` is answered from the hot store only
(the result is unchanged under any replacement of the cold collection) and a
day `< hot_boundary` from the cold store only (unchanged under any
replacement of the hot keyspace). -/
theorem getRange_partitions_at_boundary (st : Store) (w h s e d : ℤ) :
    (st.clock = none → getHotBoundary st w h = (w - h, w)) ∧
    (∀ t, st.clock = some t → getHotBoundary st w h = (dateOf t - h, dateOf t)) ∧
    ((getHotBoundary st w h).1 ≤ d → ∀ cold2,
      (getRange { st with cold := cold2 } w h s e).lookup d =
        if s ≤ d ∧ d ≤ e then hotDayEntry st d else none) ∧
    (d < (getHotBoundary st w h).1 → ∀ agg2,
      (getRange { st with agg := agg2 } w h s e).lookup d =
        if s ≤ d ∧ d ≤ e then (st.cold.lookup d).map coldProj else none) := by
  refine ⟨?_, ?_, ?_, ?_⟩
  · intro hc
    unfold getHotBoundary
    rw [hc]
  · intro t hc
    unfold getHotBoundary
    rw [hc]
  · intro hle cold2
    rw [getRange_lookup]
    have hb2 : getHotBoundary { st with cold := cold2 } w h = getHotBoundary st w h := rfl
    have hhot : hotDayEntry { st with cold := cold2 } = hotDayEntry st := rfl
    rw [hb2, hhot, if_pos hle]
  · intro hlt agg2
    rw [getRange_lookup]
    have hb2 : getHotBoundary { st with agg := agg2 } w h = getHotBoundary st w h := rfl
    rw [hb2, if_neg (not_le.mpr hlt)]

/-- Closed witness for `getRange_partitions_at_boundary`: in `sampleStore`
the boundary is `(93, 100)`, and replacing the cold collection does not change
the hot-tier answer for day 100. -/
theorem getRange_partitions_at_boundary_witness :
    getHotBoundary sampleStore 0 7 = (dateOf 8640000 - 7, dateOf 8640000) ∧
    (getRange { sampleStore with cold := [] } 0 7 95 100).lookup 100 =
      (if (95 : ℤ) ≤ 100 ∧ (100 : ℤ) ≤ 100 then hotDayEntry sampleStore 100 else none) :=
  ⟨(getRange_partitions_at_boundary sampleStore 0 7 95 100 100).2.1 8640000 rfl,
   (getRange_partitions_at_boundary sampleStore 0 7 95 100 100).2.2.1 (by decide) []⟩

theorem mem_readManyFromRedis {st : Store} {days : List ℤ} {d : ℤ} {dd : DayData}
    (hm : (d, dd) ∈ readManyFromRedis st days) :
    d ∈ days ∧ hotDayEntry st d = some dd := by
  simp only [readManyFromRedis, List.mem_filterMap] at hm
  obtain ⟨a, ha, hmap⟩ := hm
  cases h : hotDayEntry st a with
  | none =>
    rw [h] at hmap
    simp at hmap
  | some v =>
    rw [h] at hmap
    simp only [Option.map_some', Option.some.injEq, Prod.mk.injEq] at hmap
    obtain ⟨rfl, rfl⟩ := hmap
    exact ⟨ha, h⟩

theorem mem_readManyFromMongo {cold : List (ℤ × ColdDoc)} {days : List ℤ} {d : ℤ}
    {dd : DayData} (hm : (d, dd) ∈ readManyFromMongo cold days) :
    d ∈ days ∧ ∃ doc, (d, doc) ∈ cold ∧ dd = coldProj doc := by
  simp only [readManyFromMongo, List.mem_filterMap] at hm
  obtain ⟨⟨k, doc⟩, hin, hmap⟩ := hm
  by_cases hk : k ∈ days
  · rw [if_pos hk] at hmap
    simp only [Option.some.injEq, Prod.mk.injEq] at hmap
    obtain ⟨rfl, rfl⟩ := hmap
    exact ⟨hk, doc, hin, rfl⟩
  · rw [if_neg hk] at hmap
    exact absurd hmap (by simp)

/-- C10: every per-day entry of a `get_range` result carries both a
`deposits` and a `withdrawals` map; a hot-tier entry holds exactly the two
stored type hashes, with the empty map standing in for an absent hash (a day
with only deposits is returned with `withdrawals = {}`), and a cold-tier
entry fills each document field missing from the stored document with the
empty map. -/
theorem getRange_entry_fields (st : Store) (w h s e d : ℤ) (dd : DayData)
    (hm : (d, dd) ∈ getRange st w h s e) :
    (dd.deposits = st.agg (d, "deposit") ∧ dd.withdrawals = st.agg (d, "withdrawal"))
    ∨ (∃ doc, (d, doc) ∈ st.cold ∧
        dd.deposits = doc.deposits.getD [] ∧ dd.withdrawals = doc.withdrawals.getD []) := by
  simp only [getRange, List.mem_append] at hm
  cases hm with
  | inl hr =>
    left
    obtain ⟨-, hdd⟩ := mem_readManyFromRedis hr
    unfold hotDayEntry at hdd
    split at hdd
    · exact absurd hdd (by simp)
    · simp only [Option.some.injEq] at hdd
      rw [← hdd]
      exact ⟨rfl, rfl⟩
  | inr hmg =>
    right
    obtain ⟨-, doc, hdoc, rfl⟩ := mem_readManyFromMongo hmg
    exact ⟨doc, hdoc, rfl, rfl⟩

/-- Closed witness for `getRange_entry_fields`: the cold-tier entry for day 90
of `sampleStore` (document with no `withdrawals` field) is returned with the
empty withdrawals map. -/
theorem getRange_entry_fields_witness :
    (DayData.deposits ⟨[("wire", 2)], []⟩ = sampleStore.agg (90, "deposit") ∧
      DayData.withdrawals ⟨[("wire", 2)], []⟩ = sampleStore.agg (90, "withdrawal"))
    ∨ (∃ doc, ((90 : ℤ), doc) ∈ sampleStore.cold ∧
        DayData.deposits ⟨[("wire", 2)], []⟩ = doc.deposits.getD [] ∧
        DayData.withdrawals ⟨[("wire", 2)], []⟩ = doc.withdrawals.getD []) :=
  getRange_entry_fields sampleStore 0 7 85 100 90 ⟨[("wire", 2)], []⟩ (by decide)

/-! ## Archiver (`src/app/services/persistor.py`, `MongoPersistenceWorker`)

`_persist_historical_data` reads the virtual clock (returning immediately
when unset), computes `boundary_date = (clock - timedelta(days=retention)).date()`,
snapshots the tracked-days set, and for every snapshot day `≤ boundary_date`
runs `_move_day_to_mongo`.  The per-day procedure fetches both hot hashes,
removes the day from the tracked set when both are empty, and otherwise
upserts the cold document with `$inc` over every observed field (values
rounded to two decimals) *before* deleting the hot keys and removing the day
from the tracked set.  The cold-store side effects are recorded as an ordered
event trace to state the temporal claim. -/

/-- Round every observed field of a fetched hash for the `$inc` payload. -/
def roundedFields (h0 : Hash) : Hash := h0.map (fun p => (p.1, round2 p.2))

/-- The `update_payload` dict of `_move_day_to_mongo`: the `deposits.M` and
`withdrawals.M` dotted paths, kept structurally as two field lists. -/
structure IncPayload where
  depIncs : Hash
  witIncs : Hash
deriving DecidableEq

/-- Build `update_payload` from the two fetched hashes. -/
def buildUpdatePayload (dep wit : Hash) : IncPayload :=
  ⟨roundedFields dep, roundedFields wit⟩

/-- `$inc` applied to one optional nested map of a document: when no path
touches the field it stays as is (possibly absent); otherwise the increments
are applied to the existing map, or to an empty one for an absent field or a
freshly upserted document. -/
def applyIncsField (f : Option Hash) (incs : Hash) : Option Hash :=
  if incs = [] then f
  else some (incs.foldl (fun a q => hincrbyfloat a q.1 q.2) (f.getD []))

/-- `$inc` of a payload on a cold document. -/
def applyIncs (doc : ColdDoc) (p : IncPayload) : ColdDoc :=
  ⟨applyIncsField doc.deposits p.depIncs, applyIncsField doc.withdrawals p.witIncs⟩

/-- The absent document a `$inc` upsert starts from. -/
def emptyDoc : ColdDoc := ⟨none, none⟩

/-- `update_one({date: d}, {$inc: payload}, upsert=True)` on the collection. -/
def coldUpsert (cold : List (ℤ × ColdDoc)) (d : ℤ) (p : IncPayload) :
    List (ℤ × ColdDoc) :=
  if cold.any (fun q => q.1 == d) then
    cold.map (fun q => if q.1 == d then (q.1, applyIncs q.2 p) else q)
  else
    cold ++ [(d, applyIncs emptyDoc p)]

/-- The observable side effects of one `_move_day_to_mongo` call, in program
order. -/
inductive ArchEvent where
  | upsert (day : ℤ) (p : IncPayload)
  | deleteHotKeys (day : ℤ)
  | sremTracked (day : ℤ)
deriving DecidableEq

/-- `_move_day_to_mongo(day)`: fetch both hashes; if both empty only remove
the day from the tracked set; otherwise upsert the cold document (guarded by
`if update_payload:`) and then pipeline-delete both hot keys and remove the
day from the tracked set. -/
def moveDayToMongo (st : Store) (d : ℤ) : Store × List ArchEvent :=
  let dep := st.agg (d, "deposit")
  let wit := st.agg (d, "withdrawal")
  if dep = [] ∧ wit = [] then
    ({ st with tracked := st.tracked.filter (fun x => x != d) }, [ArchEvent.sremTracked d])
  else
    let p := buildUpdatePayload dep wit
    let upserted :=
      if p.depIncs = [] ∧ p.witIncs = [] then (st.cold, ([] : List ArchEvent))
      else (coldUpsert st.cold d p, [ArchEvent.upsert d p])
    ({ agg := fun k => if k = (d, "deposit") ∨ k = (d, "withdrawal") then [] else st.agg k,
       tracked := st.tracked.filter (fun x => x != d),
       clock := st.clock,
       cold := upserted.1 },
     upserted.2 ++ [ArchEvent.deleteHotKeys d, ArchEvent.sremTracked d])

/-- The loop body of `_persist_historical_data` over one snapshot day. -/
def archStep (boundary : ℤ) (acc : Store × List ArchEvent) (d : ℤ) :
    Store × List ArchEvent :=
  if d ≤ boundary then
    let mv := moveDayToMongo acc.1 d
    (mv.1, acc.2 ++ mv.2)
  else acc

/-- One `_persist_historical_data` cycle: no-op when the virtual clock is
unset, otherwise fold the per-day move over the tracked-days snapshot for
every day at or below `(clock - retention days).date()`. -/
def persistCycle (st : Store) (retention : ℤ) : Store × List ArchEvent :=
  match st.clock with
  | none => (st, [])
  | some t => st.tracked.foldl (archStep (dateOf (t - retention * 86400))) (st, [])

theorem roundedFields_eq_nil (h0 : Hash) : roundedFields h0 = [] ↔ h0 = [] := by
  unfold roundedFields
  simp

/-- C3: whenever a day still has a non-empty hot aggregate, the per-day
archive procedure emits exactly the trace [cold upsert with `$inc` over every
observed field rounded to two decimals, hot-key delete, tracked-set removal]:
the cold copy is written strictly before the hot copy is deleted. -/
theorem archive_upsert_before_delete (st : Store) (d : ℤ)
    (h : ¬(st.agg (d, "deposit") = [] ∧ st.agg (d, "withdrawal") = [])) :
    (moveDayToMongo st d).2 =
      [ArchEvent.upsert d
        (buildUpdatePayload (st.agg (d, "deposit")) (st.agg (d, "withdrawal"))),
       ArchEvent.deleteHotKeys d, ArchEvent.sremTracked d] := by
  unfold moveDayToMongo
  rw [if_neg h]
  have hp : ¬(roundedFields (st.agg (d, "deposit")) = [] ∧
      roundedFields (st.agg (d, "withdrawal")) = []) := by
    rw [roundedFields_eq_nil, roundedFields_eq_nil]
    exact h
  simp only [buildUpdatePayload, hp, if_neg hp]
  rfl

/-- Closed witness for `archive_upsert_before_delete` on `sampleStore`
(day 100 has a non-empty deposit hash). -/
theorem archive_upsert_before_delete_witness :
    (moveDayToMongo sampleStore 100).2 =
      [ArchEvent.upsert 100
        (buildUpdatePayload (sampleStore.agg (100, "deposit"))
          (sampleStore.agg (100, "withdrawal"))),
       ArchEvent.deleteHotKeys 100, ArchEvent.sremTracked 100] :=
  archive_upsert_before_delete sampleStore 100 (by decide)

theorem dateOf_sub_days (t r : ℤ) : dateOf (t - r * 86400) = dateOf t - r := by
  unfold dateOf
  omega

theorem moveDay_tracked (st : Store) (d : ℤ) :
    (moveDayToMongo st d).1.tracked = st.tracked.filter (fun x => x != d) := by
  simp only [moveDayToMongo]
  split
  · rfl
  · rfl

theorem moveDay_clock (st : Store) (d : ℤ) :
    (moveDayToMongo st d).1.clock = st.clock := by
  simp only [moveDayToMongo]
  split
  · rfl
  · rfl

theorem moveDay_agg_frame (st : Store) (d : ℤ) (k : ℤ × String)
    (h1 : k ≠ (d, "deposit")) (h2 : k ≠ (d, "withdrawal")) :
    (moveDayToMongo st d).1.agg k = st.agg k := by
  simp only [moveDayToMongo]
  split
  · rfl
  · show (if k = (d, "deposit") ∨ k = (d, "withdrawal") then [] else st.agg k) = st.agg k
    rw [if_neg]
    rintro (h | h)
    · exact h1 h
    · exact h2 h

theorem moveDay_agg_deleted (st : Store) (d : ℤ) :
    (moveDayToMongo st d).1.agg (d, "deposit") = [] ∧
      (moveDayToMongo st d).1.agg (d, "withdrawal") = [] := by
  simp only [moveDayToMongo]
  split
  · rename_i h
    exact h
  · constructor
    · show (if ((d, "deposit") : ℤ × String) = (d, "deposit") ∨
          ((d, "deposit") : ℤ × String) = (d, "withdrawal") then [] else _) = []
      rw [if_pos (Or.inl rfl)]
    · show (if ((d, "withdrawal") : ℤ × String) = (d, "deposit") ∨
          ((d, "withdrawal") : ℤ × String) = (d, "withdrawal") then [] else _) = []
      rw [if_pos (Or.inr rfl)]

theorem lookup_map_upsert (cold : List (ℤ × ColdDoc)) (d d' : ℤ) (p : IncPayload)
    (hne : d' ≠ d) :
    (cold.map (fun q => if q.1 == d then (q.1, applyIncs q.2 p) else q)).lookup d' =
      cold.lookup d' := by
  induction cold with
  | nil => rfl
  | cons q rest ih =>
    obtain ⟨k, doc⟩ := q
    simp only [List.map_cons]
    by_cases hk : k = d
    · subst hk
      rw [if_pos (by simp : (k == k) = true)]
      rw [List.lookup_cons, List.lookup_cons]
      have hbk : (d' == k) = false := by simp [hne]
      rw [hbk]
      exact ih
    · rw [if_neg (by simp [hk] : ¬ (k == d) = true)]
      rw [List.lookup_cons, List.lookup_cons]
      cases hdk : (d' == k)
      · exact ih
      · rfl

theorem lookup_coldUpsert_frame (cold : List (ℤ × ColdDoc)) (d d' : ℤ) (p : IncPayload)
    (hne : d' ≠ d) :
    (coldUpsert cold d p).lookup d' = cold.lookup d' := by
  unfold coldUpsert
  split
  · exact lookup_map_upsert cold d d' p hne
  · rw [lookup_append]
    have hone : List.lookup d' [(d, applyIncs emptyDoc p)] = none := by
      rw [List.lookup_cons]
      have hbd : (d' == d) = false := by simp [hne]
      rw [hbd]
      rfl
    rw [hone, Option.or_none]

theorem lookup_coldUpsert_self (cold : List (ℤ × ColdDoc)) (d : ℤ) (p : IncPayload) :
    (coldUpsert cold d p).lookup d =
      some (applyIncs ((cold.lookup d).getD emptyDoc) p) := by
  induction cold with
  | nil =>
    simp [coldUpsert, List.lookup]
  | cons q rest ih =>
    obtain ⟨k, doc⟩ := q
    unfold coldUpsert at ih ⊢
    by_cases hk : k = d
    · subst hk
      rw [if_pos (by simp [List.any_cons])]
      simp only [List.map_cons]
      rw [if_pos (by simp : (k == k) = true)]
      rw [List.lookup_cons_self, List.lookup_cons_self, Option.getD_some]
    · have hbk : (k == d) = false := by simp [hk]
      have hbd : (d == k) = false := by simp [Ne.symm hk]
      by_cases hany : rest.any (fun q => q.1 == d)
      · rw [if_pos (by simp [List.any_cons, hbk, hany])]
        rw [if_pos hany] at ih
        simp only [List.map_cons]
        rw [if_neg (by simp [hk] : ¬ (k == d) = true)]
        rw [List.lookup_cons, List.lookup_cons, hbd]
        exact ih
      · rw [if_neg (by simp [List.any_cons, hbk, hany])]
        rw [if_neg hany] at ih
        rw [List.cons_append, List.lookup_cons, List.lookup_cons, hbd]
        exact ih

theorem moveDay_cold_frame (st : Store) (d d' : ℤ) (hne : d' ≠ d) :
    (moveDayToMongo st d).1.cold.lookup d' = st.cold.lookup d' := by
  simp only [moveDayToMongo]
  split
  · rfl
  · show (if _ ∧ _ then (st.cold, ([] : List ArchEvent))
      else (coldUpsert st.cold d _, _)).1.lookup d' = _
    split
    · rfl
    · exact lookup_coldUpsert_frame st.cold d d' _ hne

theorem moveDay_cold_self (st : Store) (d : ℤ) :
    (moveDayToMongo st d).1.cold.lookup d =
      if st.agg (d, "deposit") = [] ∧ st.agg (d, "withdrawal") = [] then
        st.cold.lookup d
      else
        some (applyIncs ((st.cold.lookup d).getD emptyDoc)
          (buildUpdatePayload (st.agg (d, "deposit")) (st.agg (d, "withdrawal")))) := by
  simp only [moveDayToMongo]
  split
  · rfl
  · rename_i h
    have hp : ¬((buildUpdatePayload (st.agg (d, "deposit"))
          (st.agg (d, "withdrawal"))).depIncs = [] ∧
        (buildUpdatePayload (st.agg (d, "deposit"))
          (st.agg (d, "withdrawal"))).witIncs = []) := by
      simp only [buildUpdatePayload]
      rw [roundedFields_eq_nil, roundedFields_eq_nil]
      exact h
    rw [if_neg hp]
    exact lookup_coldUpsert_self st.cold d _

theorem archStep_tracked (b : ℤ) (acc : Store × List ArchEvent) (a : ℤ) :
    (archStep b acc a).1.tracked =
      if a ≤ b then acc.1.tracked.filter (fun x => x != a) else acc.1.tracked := by
  unfold archStep
  split
  · exact moveDay_tracked acc.1 a
  · rfl

theorem archStep_clock (b : ℤ) (acc : Store × List ArchEvent) (a : ℤ) :
    (archStep b acc a).1.clock = acc.1.clock := by
  unfold archStep
  split
  · exact moveDay_clock acc.1 a
  · rfl

theorem archStep_agg_frame (b : ℤ) (acc : Store × List ArchEvent) (a : ℤ)
    (k : ℤ × String) (h1 : k ≠ (a, "deposit")) (h2 : k ≠ (a, "withdrawal")) :
    (archStep b acc a).1.agg k = acc.1.agg k := by
  unfold archStep
  split
  · exact moveDay_agg_frame acc.1 a k h1 h2
  · rfl

theorem archStep_cold_frame (b : ℤ) (acc : Store × List ArchEvent) (a d : ℤ)
    (hne : d ≠ a) :
    (archStep b acc a).1.cold.lookup d = acc.1.cold.lookup d := by
  unfold archStep
  split
  · exact moveDay_cold_frame acc.1 a d hne
  · rfl

theorem archiveFold_tracked (b : ℤ) (days : List ℤ) :
    ∀ acc : Store × List ArchEvent,
      (days.foldl (archStep b) acc).1.tracked =
        acc.1.tracked.filter (fun x => !(decide (x ≤ b) && days.contains x)) := by
  induction days with
  | nil =>
    intro acc
    simp
  | cons a l ih =>
    intro acc
    rw [List.foldl_cons, ih]
    by_cases ha : a ≤ b
    · rw [archStep_tracked, if_pos ha, List.filter_filter]
      apply List.filter_congr
      intro x _
      rw [List.contains_cons]
      by_cases h2 : x = a
      · subst h2
        simp [decide_eq_true ha]
      · have hba : (x == a) = false := by simp [h2]
        simp [hba, h2]
    · rw [archStep_tracked, if_neg ha]
      apply List.filter_congr
      intro x _
      rw [List.contains_cons]
      by_cases h2 : x = a
      · subst h2
        simp [decide_eq_false ha]
      · have hba : (x == a) = false := by simp [h2]
        simp [hba]

theorem archiveFold_clock (b : ℤ) (days : List ℤ) :
    ∀ acc : Store × List ArchEvent,
      (days.foldl (archStep b) acc).1.clock = acc.1.clock := by
  induction days with
  | nil => intro acc; rfl
  | cons a l ih =>
    intro acc
    rw [List.foldl_cons, ih, archStep_clock]

theorem moveDay_agg_cases (st : Store) (d : ℤ) (k : ℤ × String) :
    (moveDayToMongo st d).1.agg k = st.agg k ∨ (moveDayToMongo st d).1.agg k = [] := by
  simp only [moveDayToMongo]
  split
  · left
    rfl
  · show ((if k = (d, "deposit") ∨ k = (d, "withdrawal") then [] else st.agg k) = st.agg k)
      ∨ ((if k = (d, "deposit") ∨ k = (d, "withdrawal") then [] else st.agg k) = [])
    split
    · right
      rfl
    · left
      rfl

theorem archiveFold_agg_cases (b : ℤ) (days : List ℤ) :
    ∀ (acc : Store × List ArchEvent) (k : ℤ × String),
      (days.foldl (archStep b) acc).1.agg k = acc.1.agg k ∨
        (days.foldl (archStep b) acc).1.agg k = [] := by
  induction days with
  | nil =>
    intro acc k
    left
    rfl
  | cons a l ih =>
    intro acc k
    rw [List.foldl_cons]
    rcases ih (archStep b acc a) k with h | h
    · rw [h]
      unfold archStep
      split
      · exact moveDay_agg_cases acc.1 a k
      · left
        rfl
    · right
      exact h

theorem archiveFold_agg_deleted (b : ℤ) (days : List ℤ) :
    ∀ (acc : Store × List ArchEvent) (d : ℤ), d ∈ days → d ≤ b →
      (days.foldl (archStep b) acc).1.agg (d, "deposit") = [] ∧
        (days.foldl (archStep b) acc).1.agg (d, "withdrawal") = [] := by
  induction days with
  | nil =>
    intro acc d h
    cases h
  | cons a l ih =>
    intro acc d hmem hdb
    rw [List.foldl_cons]
    rcases List.mem_cons.mp hmem with rfl | hl
    · constructor
      · rcases archiveFold_agg_cases b l (archStep b acc d) (d, "deposit") with h | h
        · rw [h]
          unfold archStep
          rw [if_pos hdb]
          exact (moveDay_agg_deleted acc.1 d).1
        · exact h
      · rcases archiveFold_agg_cases b l (archStep b acc d) (d, "withdrawal") with h | h
        · rw [h]
          unfold archStep
          rw [if_pos hdb]
          exact (moveDay_agg_deleted acc.1 d).2
        · exact h
    · exact ih _ d hl hdb

theorem archiveFold_agg_frame (b : ℤ) (days : List ℤ) :
    ∀ (acc : Store × List ArchEvent) (k : ℤ × String),
      (∀ d ∈ days, d ≤ b → k ≠ (d, "deposit") ∧ k ≠ (d, "withdrawal")) →
      (days.foldl (archStep b) acc).1.agg k = acc.1.agg k := by
  induction days with
  | nil =>
    intro acc k _
    rfl
  | cons a l ih =>
    intro acc k hk
    rw [List.foldl_cons, ih _ k (fun d hd hdb => hk d (List.mem_cons_of_mem a hd) hdb)]
    unfold archStep
    split
    · rename_i ha
      exact moveDay_agg_frame acc.1 a k (hk a (List.mem_cons_self a l) ha).1
        (hk a (List.mem_cons_self a l) ha).2
    · rfl

theorem archiveFold_cold_frame (b : ℤ) (days : List ℤ) :
    ∀ (acc : Store × List ArchEvent) (d : ℤ), ¬(d ∈ days ∧ d ≤ b) →
      (days.foldl (archStep b) acc).1.cold.lookup d = acc.1.cold.lookup d := by
  induction days with
  | nil =>
    intro acc d _
    rfl
  | cons a l ih =>
    intro acc d hd
    rw [List.foldl_cons, ih _ d (fun hc => hd ⟨List.mem_cons_of_mem a hc.1, hc.2⟩)]
    by_cases hda : d = a
    · subst hda
      unfold archStep
      rw [if_neg (fun hdb => hd ⟨List.mem_cons_self d l, hdb⟩)]
    · exact archStep_cold_frame b acc a d hda

theorem archiveFold_cold_moved (b : ℤ) (days : List ℤ) :
    ∀ (acc : Store × List ArchEvent) (d : ℤ), days.Nodup → d ∈ days → d ≤ b →
      (days.foldl (archStep b) acc).1.cold.lookup d =
        (if acc.1.agg (d, "deposit") = [] ∧ acc.1.agg (d, "withdrawal") = [] then
          acc.1.cold.lookup d
        else
          some (applyIncs ((acc.1.cold.lookup d).getD emptyDoc)
            (buildUpdatePayload (acc.1.agg (d, "deposit"))
              (acc.1.agg (d, "withdrawal"))))) := by
  induction days with
  | nil =>
    intro acc d _ h
    cases h
  | cons a l ih =>
    intro acc d hnd hmem hdb
    rw [List.foldl_cons]
    rcases List.mem_cons.mp hmem with rfl | hl
    · have hdl : d ∉ l := (List.nodup_cons.mp hnd).1
      rw [archiveFold_cold_frame b l _ d (fun hc => hdl hc.1)]
      unfold archStep
      rw [if_pos hdb]
      exact moveDay_cold_self acc.1 d
    · have hal : a ∉ l := (List.nodup_cons.mp hnd).1
      have hda : d ≠ a := fun he => hal (he ▸ hl)
      rw [ih (archStep b acc a) d (List.nodup_cons.mp hnd).2 hl hdb,
        archStep_agg_frame b acc a (d, "deposit") (by simp [hda]) (by simp),
        archStep_agg_frame b acc a (d, "withdrawal") (by simp) (by simp [hda]),
        archStep_cold_frame b acc a d hda]

/-- C4: an archiver cycle with the virtual clock unset does nothing (no store
change, no side effect); with the clock set to `t` it moves exactly the
tracked days `≤ virtual_today − retention_days` from the hot store to the
cold store: afterwards no tracked day is at or below the boundary (the
tracked set is exactly the old one filtered to the days above it), every
moved day's hot hashes are deleted and its cold document has received the
hot contents via the `$inc` upsert (days with empty hot data are merely
untracked), and days not selected keep their hot keys and cold documents
unchanged. -/
theorem archiver_cycle_retention (st : Store) (r t : ℤ) (hnd : st.tracked.Nodup) :
    (st.clock = none → persistCycle st r = (st, [])) ∧
    (st.clock = some t →
      (∀ d ∈ (persistCycle st r).1.tracked, ¬ d ≤ dateOf t - r) ∧
      ((persistCycle st r).1.tracked =
        st.tracked.filter (fun x => !decide (x ≤ dateOf t - r))) ∧
      (∀ d ∈ st.tracked, d ≤ dateOf t - r →
        (persistCycle st r).1.agg (d, "deposit") = [] ∧
        (persistCycle st r).1.agg (d, "withdrawal") = [] ∧
        (persistCycle st r).1.cold.lookup d =
          (if st.agg (d, "deposit") = [] ∧ st.agg (d, "withdrawal") = [] then
            st.cold.lookup d
          else
            some (applyIncs ((st.cold.lookup d).getD emptyDoc)
              (buildUpdatePayload (st.agg (d, "deposit"))
                (st.agg (d, "withdrawal")))))) ∧
      (∀ k : ℤ × String,
        (∀ d ∈ st.tracked, d ≤ dateOf t - r → k ≠ (d, "deposit") ∧ k ≠ (d, "withdrawal")) →
        (persistCycle st r).1.agg k = st.agg k) ∧
      (∀ d : ℤ, ¬(d ∈ st.tracked ∧ d ≤ dateOf t - r) →
        (persistCycle st r).1.cold.lookup d = st.cold.lookup d)) := by
  constructor
  · intro hc
    unfold persistCycle
    rw [hc]
  · intro hc
    have hpc : persistCycle st r =
        st.tracked.foldl (archStep (dateOf (t - r * 86400))) (st, []) := by
      unfold persistCycle
      rw [hc]
    have hb : dateOf (t - r * 86400) = dateOf t - r := dateOf_sub_days t r
    refine ⟨?_, ?_, ?_, ?_, ?_⟩
    · intro d hd
      rw [hpc, archiveFold_tracked] at hd
      have hmem := List.mem_of_mem_filter hd
      have hpred := List.of_mem_filter hd
      have hcont : st.tracked.contains d = true := List.elem_eq_true_of_mem hmem
      rw [hb] at hpred
      intro hle
      rw [hcont, decide_eq_true hle] at hpred
      simp at hpred
    · rw [hpc, archiveFold_tracked, hb]
      apply List.filter_congr
      intro x hx
      have hcont : st.tracked.contains x = true := List.elem_eq_true_of_mem hx
      rw [hcont, Bool.and_true]
    · intro d hd hdb
      rw [← hb] at hdb
      obtain ⟨h1, h2⟩ := archiveFold_agg_deleted (dateOf (t - r * 86400)) st.tracked
        (st, []) d hd hdb
      refine ⟨by rw [hpc]; exact h1, by rw [hpc]; exact h2, ?_⟩
      rw [hpc]
      exact archiveFold_cold_moved (dateOf (t - r * 86400)) st.tracked (st, []) d hnd hd hdb
    · intro k hk
      rw [hpc]
      exact archiveFold_agg_frame (dateOf (t - r * 86400)) st.tracked (st, []) k
        (fun d hd hdb => hk d hd (hb ▸ hdb))
    · intro d hd
      rw [hpc]
      exact archiveFold_cold_frame (dateOf (t - r * 86400)) st.tracked (st, []) d
        (fun hc2 => hd ⟨hc2.1, hb ▸ hc2.2⟩)

/-- A state for the archiver witness: days 0 and 100 tracked, hot data for
day 0, virtual clock on day 100 (retention boundary 93 at retention 7). -/
def archSampleStore : Store :=
  ⟨fun k => if k = (0, "deposit") then [("card", 2)] else [], [0, 100], some 8640000, []⟩

/-- Closed witness for `archiver_cycle_retention`: one cycle over
`archSampleStore` untracks exactly day 0 and deletes its hot deposit hash. -/
theorem archiver_cycle_retention_witness :
    ((persistCycle archSampleStore 7).1.tracked =
      archSampleStore.tracked.filter (fun x => !decide (x ≤ dateOf 8640000 - 7))) ∧
    (persistCycle archSampleStore 7).1.agg (0, "deposit") = [] := by
  have h := (archiver_cycle_retention archSampleStore 7 8640000 (by decide)).2 rfl
  exact ⟨h.2.1, (h.2.2.1 0 (by decide) (by decide)).1⟩

/-! ## Keying contract (`src/app/core/redis_keys.py`)

The keying functions operate on real strings; a Python `str` is its list of
characters (`String.data`), and Python's `key.split(":")` is splitting on the
single character `':'`, keeping empty segments. -/

/-- Python `s.split(sep)` for a one-character separator: split on every
occurrence, keeping empty segments (`split` of the empty string is `[""]`). -/
def splitOnChar (sep : Char) : List Char → List (List Char)
  | [] => [[]]
  | c :: rest =>
    if c = sep then [] :: splitOnChar sep rest
    else
      match splitOnChar sep rest with
      | [] => [[c]]
      | s :: ss => (c :: s) :: ss

/-- `get_agg_key(day, tx_type) = f"{prefix}:{day}:{tx_type}"` with the default
configured key prefix `"agg"` (`settings.redis.agg_prefix`). -/
def get_agg_key (day tx_type : String) : String :=
  "agg" ++ ":" ++ day ++ ":" ++ tx_type

/-- `settings.redis.tracked_days_key` (default). -/
def get_tracked_days_key : String := "system:tracked_days"

/-- `settings.redis.virtual_clock_key` (default). -/
def get_virtual_clock_key : String := "system:virtual_clock"

/-- `parse_day_from_key(key) = key.split(":")[1]` (totalised with the empty
string where Python would raise `IndexError` on a key with no `':'`). -/
def parse_day_from_key (key : String) : String :=
  String.mk ((splitOnChar ':' key.data).getD 1 [])

theorem splitOnChar_append_sep (sep : Char) (l r : List Char) (h : sep ∉ l) :
    splitOnChar sep (l ++ sep :: r) = l :: splitOnChar sep r := by
  induction l with
  | nil =>
    show splitOnChar sep (sep :: r) = [] :: splitOnChar sep r
    simp only [splitOnChar]
    rw [if_pos trivial]
  | cons c cl ih =>
    have hc : c ≠ sep := fun he => h (he ▸ List.mem_cons_self c cl)
    have hcl : sep ∉ cl := fun hm => h (List.mem_cons_of_mem c hm)
    rw [List.cons_append]
    show splitOnChar sep (c :: (cl ++ sep :: r)) = (c :: cl) :: splitOnChar sep r
    simp only [splitOnChar]
    rw [if_neg hc, ih hcl]

/-- C9: for every valid day string `D` (no `':'`) and every type `T`,
`parse_day(agg_key(D, T)) == D`. -/
theorem parse_day_roundtrip (D T : String) (h : ':' ∉ D.data) :
    parse_day_from_key (get_agg_key D T) = D := by
  unfold parse_day_from_key get_agg_key
  have hdata : ("agg" ++ ":" ++ D ++ ":" ++ T).data =
      ['a', 'g', 'g'] ++ ':' :: (D.data ++ ':' :: T.data) := by
    simp [String.data_append]
  rw [hdata, splitOnChar_append_sep ':' ['a', 'g', 'g'] _ (by decide),
    splitOnChar_append_sep ':' D.data _ h]
  show String.mk D.data = D
  obtain ⟨l⟩ := D
  rfl

/-- Closed witness for `parse_day_roundtrip` at a concrete well-formed day. -/
theorem parse_day_roundtrip_witness :
    parse_day_from_key (get_agg_key "2026-01-01" "deposit") = "2026-01-01" :=
  parse_day_roundtrip "2026-01-01" "deposit" (by decide)

/-! ## Importer (`src/app/services/importer.py`, `CsvTransactionImporter`)

`_process_row` parses `int(row["sleep_ms"])` inside a `try` (logging and
returning on failure), sleeps, and appends the row to the `transactions`
stream.  A row is a field map from the CSV header; the stream is the list of
appended rows.  The timed sleep and a failing `xadd` (logged and returned,
leaving the stream unchanged like a skip) have no modelled effect beyond the
append. -/

/-- A parsed CSV row: column name to raw string value. -/
abbrev CsvRow := List (String × String)

/-- Value of a digit list, most significant first. -/
def digitsVal (ds : List Char) : ℕ :=
  ds.foldl (fun a c => 10 * a + (c.toNat - 48)) 0

/-- Python `int(s)` on a CSV cell, restricted to an optional sign followed by
digits (Python additionally strips surrounding whitespace and underscores
between digits, which do not occur in the CSV cells modelled here); `none`
models a raised `ValueError`.  Note that a negative integer parses fine. -/
def pyInt (s : String) : Option ℤ :=
  match s.data with
  | [] => none
  | '-' :: ds =>
    if ds ≠ [] ∧ ds.all (fun c => c.isDigit) then some (-(digitsVal ds : ℤ))
    else none
  | '+' :: ds =>
    if ds ≠ [] ∧ ds.all (fun c => c.isDigit) then some ((digitsVal ds : ℤ))
    else none
  | ds =>
    if ds.all (fun c => c.isDigit) then some ((digitsVal ds : ℤ))
    else none

/-- `_process_row`: look up `sleep_ms` (a missing column raises `KeyError`),
parse it with `int` (`ValueError` on failure) — on failure log and return
without touching the stream — then sleep and `xadd` the row verbatim. -/
def processRow (stream : List CsvRow) (row : CsvRow) : List CsvRow :=
  match row.lookup "sleep_ms" with
  | none => stream
  | some s =>
    match pyInt s with
    | none => stream
    | some _ => stream ++ [row]

/-- C7, counterexample to the claim as stated: `"-5"` is not a non-negative
integer, yet `int("-5")` succeeds, `asyncio.sleep(-0.005)` returns
immediately, and the row **is** appended to the stream. -/
theorem negative_sleep_ms_row_appended :
    pyInt "-5" = some (-5) ∧ (-5 : ℤ) < 0 ∧
      processRow [] [("timestamp", "2026-01-01T00:00:00"), ("sleep_ms", "-5")] =
        [[("timestamp", "2026-01-01T00:00:00"), ("sleep_ms", "-5")]] := by
  decide

/-- C7 as amended: a row whose `sleep_ms` field is missing or fails integer
parsing (`int` raises) is logged and skipped — it is never appended and the
stream is unchanged; rows with negative integer `sleep_ms` are accepted. -/
theorem invalid_sleep_ms_never_appended (stream : List CsvRow) (row : CsvRow)
    (h : row.lookup "sleep_ms" = none ∨
      ∃ s, row.lookup "sleep_ms" = some s ∧ pyInt s = none) :
    processRow stream row = stream := by
  unfold processRow
  rcases h with h | ⟨s, hs, hp⟩
  · rw [h]
  · rw [hs]
    show (match pyInt s with
      | none => stream
      | some _ => stream ++ [row]) = stream
    rw [hp]

/-- Closed witness for `invalid_sleep_ms_never_appended`: a non-numeric
`sleep_ms` leaves the stream unchanged. -/
theorem invalid_sleep_ms_never_appended_witness :
    processRow [] [("sleep_ms", "abc")] = [] :=
  invalid_sleep_ms_never_appended [] [("sleep_ms", "abc")]
    (Or.inr ⟨"abc", by decide, by decide⟩)

end TransactionsApi
